import Mathlib

/-!
A shallow embedding of `src/sniffer.py` (dd-dependency-sniffer).  Python
strings become `List Char`, the Python `set` of dependencies becomes a list
that keeps the first element of every equality class, and filesystem or
network effects become explicit parameters.  Each definition is translated
from the corresponding function of `src/sniffer.py`.
-/

namespace Sniffer

/-- The characters Python treats as whitespace, for `str.strip` and `\s`. -/
def isPySpace (c : Char) : Bool :=
  c = ' ' || c = '\t' || c = '\n' || c = '\r' || c = '\x0b' || c = '\x0c'

/-- Python `str.strip()`: drop whitespace from both ends. -/
def pyStrip (s : List Char) : List Char :=
  ((s.dropWhile isPySpace).reverse.dropWhile isPySpace).reverse

/-- Python `str.split(sep)` for a one-character separator: every occurrence
separates, empty pieces are kept, the empty string splits to `[[]]`. -/
def pySplitChar (sep : Char) : List Char → List (List Char)
  | [] => [[]]
  | c :: rest =>
    match pySplitChar sep rest with
    | [] => [[c]]
    | g :: gs => if c = sep then [] :: g :: gs else (c :: g) :: gs

/-- Python `str.find(c)` for a single character: the first index holding
`c`, `none` standing for Python's `-1`. -/
def charFind (s : List Char) (c : Char) : Option Nat :=
  s.findIdx? (fun x => x == c)

/-- Python `str.rfind(c)` for a single character: the last index holding
`c`, `none` standing for Python's `-1`. -/
def charRfind (s : List Char) (c : Char) : Option Nat :=
  match charFind s.reverse c with
  | some j => some (s.length - 1 - j)
  | none => none

/-- Python `hay.find(needle)` for a multi-character needle: the least start
index where `needle` occurs, `none` standing for `-1`. -/
def strFind (hay needle : List Char) : Option Nat :=
  (List.range (hay.length + 1)).find? (fun i => needle.isPrefixOf (hay.drop i))

/-- Python slicing `s[a:b]` with step 1: negative indices count from the
end, out-of-range indices clamp. -/
def pySlice (s : List Char) (a b : Int) : List Char :=
  let n := s.length
  let lo := if a < 0 then ((n : Int) + a).toNat else min a.toNat n
  let hi := if b < 0 then ((n : Int) + b).toNat else min b.toNat n
  (s.take hi).drop lo

/-- The `Dependency` dataclass of `sniffer.py`. -/
structure Dependency where
  group_id : List Char
  artifact_id : List Char
  version : List Char
  scope : Option (List Char)
  type : List Char
deriving DecidableEq, Repr

/-- The default packaging type of `Dependency.__init__`. -/
def jarType : List Char := ("jar").toList

/-- The `Dependency.__init__` constructor: it only assigns the five fields,
nothing is validated. -/
def Dependency.init (group_id artifact_id version : List Char)
    (scope : Option (List Char)) (type : List Char) : Dependency :=
  { group_id := group_id, artifact_id := artifact_id, version := version,
    scope := scope, type := type }

/-- The constructor applied with its Python defaults `scope=None`,
`type="jar"`, as `_extract_gradle_dependencies` calls it. -/
def Dependency.init3 (group_id artifact_id version : List Char) : Dependency :=
  Dependency.init group_id artifact_id version none jarType

/-- The identity triple that `Dependency.__eq__` and `Dependency.__hash__`
are computed from. -/
def Dependency.key (d : Dependency) : List Char × List Char × List Char :=
  (d.group_id, d.artifact_id, d.version)

/-- The `Dependency.__eq__` test: group, artifact and version compared, scope and
type ignored. -/
def pyEq (a b : Dependency) : Bool :=
  decide (a.group_id = b.group_id) && decide (a.artifact_id = b.artifact_id)
    && decide (a.version = b.version)

/-- One step of building the Python `set`: an element whose `__eq__` class
is already present is dropped, so the first-seen element of a class wins. -/
def setAdd (s : List Dependency) (d : Dependency) : List Dependency :=
  if s.any (fun x => pyEq x d) then s else s ++ [d]

/-! The function `_copy_java_dependency`: the three-tier resolution.

The tiers touch the filesystem and the network, so they are abstracted to
the booleans that drive the control flow of `_copy_java_dependency`:
whether each cache root exists (`os.path.exists(maven_home)` /
`os.path.exists(gradle_home)`) and whether each tier's copy function would
succeed on this coordinate.  The embedding additionally records the list of
tier bodies that actually run, in order. -/

/-- The three resolution tiers of `_copy_java_dependency`. -/
inductive Tier where
  | maven
  | gradle
  | central
deriving DecidableEq, Repr

/-- The filesystem/network facts that decide `_copy_java_dependency`'s
control flow for one coordinate. -/
structure TierEnv where
  mavenHomeExists : Bool
  gradleHomeExists : Bool
  mavenCopySucceeds : Bool
  gradleCopySucceeds : Bool
  centralCopySucceeds : Bool

/-- The function `_copy_java_dependency`, instrumented with the trace of attempted
tiers: `os.path.exists(home) and _copy_..._dependency(...)` runs the tier
body only when the home exists, each `return True` short-circuits, and the
remote tier is the final fallback. -/
def copy_java_dependency (e : TierEnv) : Bool × List Tier :=
  let mavenTry : Bool × List Tier :=
    if e.mavenHomeExists then (e.mavenCopySucceeds, [Tier.maven]) else (false, [])
  if mavenTry.1 then (true, mavenTry.2) else
  let gradleTry : Bool × List Tier :=
    if e.gradleHomeExists then (e.gradleCopySucceeds, [Tier.gradle]) else (false, [])
  if gradleTry.1 then (true, mavenTry.2 ++ gradleTry.2) else
  (e.centralCopySucceeds, mavenTry.2 ++ gradleTry.2 ++ [Tier.central])

/-- C1: `resolve` attempts local tier A (Maven), local tier B (Gradle) and
the remote registry in strict order; a tier whose cache root does not exist
is skipped entirely; the first tier to succeed short-circuits and later
tiers are never attempted. -/
theorem copy_java_dependency_tier_order (mh gh ms gs cs : Bool) :
    List.Sublist (copy_java_dependency ⟨mh, gh, ms, gs, cs⟩).2
        [Tier.maven, Tier.gradle, Tier.central] ∧
    (mh = false → Tier.maven ∉ (copy_java_dependency ⟨mh, gh, ms, gs, cs⟩).2) ∧
    (gh = false → Tier.gradle ∉ (copy_java_dependency ⟨mh, gh, ms, gs, cs⟩).2) ∧
    (mh = true → ms = true →
      copy_java_dependency ⟨mh, gh, ms, gs, cs⟩ = (true, [Tier.maven])) ∧
    ((mh = false ∨ ms = false) → gh = true → gs = true →
      (copy_java_dependency ⟨mh, gh, ms, gs, cs⟩).1 = true ∧
      Tier.central ∉ (copy_java_dependency ⟨mh, gh, ms, gs, cs⟩).2 ∧
      Tier.gradle ∈ (copy_java_dependency ⟨mh, gh, ms, gs, cs⟩).2) ∧
    ((copy_java_dependency ⟨mh, gh, ms, gs, cs⟩).1 = false →
      Tier.central ∈ (copy_java_dependency ⟨mh, gh, ms, gs, cs⟩).2) := by
  refine ⟨?_, ?_, ?_, ?_, ?_, ?_⟩ <;> revert mh gh ms gs cs <;> decide

/-! The function `_copy_java_dependencies`: workspace reset and materialization. -/

/-- The state of the workspace directory: whether it exists and the files
it holds, each a name paired with its content. -/
structure WorkspaceState where
  present : Bool
  files : List (List Char × List Char)
deriving DecidableEq

/-- Lines 172-179 of `sniffer.py`: `os.makedirs(WORKSPACE)` when the
directory is absent, otherwise `os.walk` over it unlinking every file and
removing every contained directory tree. -/
def resetWorkspace (ws : WorkspaceState) : WorkspaceState :=
  if ws.present then { present := true, files := [] }
  else { present := true, files := [] }

/-- The artifact filename `f"{dep.artifact_id}-{dep.version}.{dep.type}"`. -/
def depFileName (d : Dependency) : List Char :=
  d.artifact_id ++ '-' :: d.version ++ '.' :: d.type

/-- One iteration of the loop of `_copy_java_dependencies`: when the
three-tier resolution finds content for the coordinate, the file lands in
the workspace; a failure is only logged. -/
def copyOneDependency (resolve : Dependency → Option (List Char))
    (ws : WorkspaceState) (d : Dependency) : WorkspaceState :=
  match resolve d with
  | some content => { ws with files := ws.files ++ [(depFileName d, content)] }
  | none => ws

/-- The function `_copy_java_dependencies`: reset the workspace, then materialize every
coordinate in turn. -/
def copy_java_dependencies (resolve : Dependency → Option (List Char))
    (deps : List Dependency) (ws : WorkspaceState) : WorkspaceState :=
  deps.foldl (copyOneDependency resolve) (resetWorkspace ws)

/-- C3: the target directory is reset to empty before materialization —
created when absent, recursively cleared when present — so the outcome
never depends on the directory's prior contents: runs with the same
coordinate set over any two prior states, stale files included, produce
the same file set. -/
theorem copy_java_dependencies_reset_idempotent
    (resolve : Dependency → Option (List Char)) (deps : List Dependency)
    (ws ws2 : WorkspaceState) :
    (resetWorkspace ws).present = true ∧ (resetWorkspace ws).files = [] ∧
    copy_java_dependencies resolve deps ws =
      copy_java_dependencies resolve deps ws2 := by
  have h : ∀ w : WorkspaceState, resetWorkspace w = ⟨true, []⟩ := by
    intro w
    unfold resetWorkspace
    split <;> rfl
  refine ⟨by rw [h], by rw [h], ?_⟩
  unfold copy_java_dependencies
  rw [h, h]

/-! The constructor `Dependency.__init__` stores its fields without validation. -/

/-- Validating constructor following the words of the spec (claim C8), for
comparison with `Dependency.init` of the source: it would reject an empty
`groupId` or `artifactId`. -/
def specValidatingInit (g a v : List Char) (s : Option (List Char))
    (t : List Char) : Option Dependency :=
  if g = [] ∨ a = [] then none else some (Dependency.init g a v s t)

/-- C8 counterexample: `Dependency.__init__` accepts an empty `groupId` and
an empty `artifactId`, storing the empty fields, where the claimed
validating constructor fails. -/
theorem dependency_init_accepts_empty :
    specValidatingInit [] (("x").toList) (("1").toList) none jarType = none ∧
    Dependency.init [] (("x").toList) (("1").toList) none jarType =
      { group_id := [], artifact_id := ("x").toList, version := ("1").toList,
        scope := none, type := jarType } ∧
    Dependency.init (("g").toList) [] (("1").toList) none jarType =
      { group_id := ("g").toList, artifact_id := [], version := ("1").toList,
        scope := none, type := jarType } := by
  decide

/-- C8 amended: the constructor validates nothing — for every choice of
fields, empty `groupId` or `artifactId` included, construction succeeds and
returns exactly the given fields; the omitted-argument defaults are
`scope=None` and `type="jar"`. -/
theorem dependency_init_stores_fields (g a v : List Char)
    (s : Option (List Char)) (t : List Char) :
    Dependency.init g a v s t =
      { group_id := g, artifact_id := a, version := v, scope := s, type := t } ∧
    Dependency.init3 g a v =
      { group_id := g, artifact_id := a, version := v, scope := none,
        type := jarType } :=
  ⟨rfl, rfl⟩

/-! The fatal-error gate on the external search utility. -/

/-- The fields of `subprocess.run(..., capture_output=True)` that
`_find_java_packages` and `_find_java_artifact` capture. -/
structure SubprocessResult where
  stdout : List Char
  stderr : List Char
  returncode : Int

/-- Lines 135-139 and 162-166 of `sniffer.py`: raise `RuntimeError` with
the decoded error stream when it is non-empty, otherwise hand the standard
output on to `json.loads`.  The exit status is never read. -/
def checkSearchOutput (r : SubprocessResult) : Except (List Char) (List Char) :=
  if 0 < r.stderr.length then Except.error r.stderr else Except.ok r.stdout

/-- C9 counterexample: with an empty error stream and exit status 1 the
phase does not fail — the standard output is handed to the JSON parse —
refuting "fatal if and only if ... or exits with a non-zero status". -/
theorem search_gate_ignores_exit_code :
    (1 : Int) ≠ 0 ∧
    checkSearchOutput { stdout := ("[]").toList, stderr := [], returncode := 1 } =
      Except.ok (("[]").toList) :=
  ⟨by decide, rfl⟩

/-- C9 amended: the search phase fails fatally if and only if the utility's
error stream is non-empty (raising with that stream's content); the exit
status is never examined, and with an empty error stream the standard
output proceeds to JSON parsing and aggregation. -/
theorem search_gate_stderr_only (r : SubprocessResult) (c : Int) :
    (checkSearchOutput r = Except.error r.stderr ↔ r.stderr ≠ []) ∧
    checkSearchOutput { r with returncode := c } = checkSearchOutput r ∧
    (r.stderr = [] → checkSearchOutput r = Except.ok r.stdout) := by
  refine ⟨?_, rfl, ?_⟩
  · cases hs : r.stderr with
    | nil => simp [checkSearchOutput, hs]
    | cons a l => simp [checkSearchOutput, hs]
  · intro h
    simp [checkSearchOutput, h]

/-! The function `_analyze_java_dependencies`: owner/reference extraction and
aggregation -/

/-- Lines 93-104 of `sniffer.py` for one match record: `find("{")`,
`rfind("}")`, then Python slicing — the owner drops the first
`len(WORKSPACE) + 1` characters of the path and stops before the first
opening brace; the reference sits between the first opening brace and the
last closing one; a path with no opening brace is used whole for both. -/
def parseMatchRecord (workspaceLen : Nat) (item : List Char) :
    List Char × List Char :=
  match charFind item '\x7b' with
  | some start =>
    let e : Int :=
      match charRfind item '\x7d' with
      | some j => (j : Int)
      | none => -1
    (pySlice item ((workspaceLen : Int) + 1) (start : Int),
     pySlice item ((start : Int) + 1) e)
  | none => (item, item)

/-- The update `dependencies.setdefault(parent_file, []).append(children_ref)` over an
insertion-ordered association list, as a Python dict iterates. -/
def addRecord (groups : List (List Char × List (List Char)))
    (owner ref : List Char) : List (List Char × List (List Char)) :=
  match groups with
  | [] => [(owner, [ref])]
  | (k, refs) :: rest =>
    if k = owner then (k, refs ++ [ref]) :: rest
    else (k, refs) :: addRecord rest owner ref

/-- The grouping loop of `_analyze_java_dependencies` over the list of
matched paths. -/
def groupRecords (workspaceLen : Nat) (items : List (List Char)) :
    List (List Char × List (List Char)) :=
  items.foldl (fun gs item =>
    addRecord gs (parseMatchRecord workspaceLen item).1
      (parseMatchRecord workspaceLen item).2) []

/-- The constant `MAX_FILES_PER_DEPENDENCY` of `sniffer.py`. -/
def MAX_FILES_PER_DEPENDENCY : Nat := 3

/-- One printed line of a dependency's group in the report: a reference
shown verbatim, or the `[...]` overflow marker. -/
inductive ReportLine where
  | ref (r : List Char)
  | overflow
deriving DecidableEq, Repr

/-- Lines 109-113 of `sniffer.py` for one owner: print the first
`MAX_FILES_PER_DEPENDENCY` references (`itertools.islice`), then one
`[...]` marker when more exist. -/
def renderGroup (refs : List (List Char)) : List ReportLine :=
  (refs.take MAX_FILES_PER_DEPENDENCY).map ReportLine.ref ++
    (if MAX_FILES_PER_DEPENDENCY < refs.length then [ReportLine.overflow]
     else [])

/-- Five search-utility paths naming the same owning archive, exercising
the aggregation cap end to end. -/
def fiveSameOwnerItems : List (List Char) :=
  [("w/own.jar\x7br1\x7d").toList, ("w/own.jar\x7br2\x7d").toList,
   ("w/own.jar\x7br3\x7d").toList, ("w/own.jar\x7br4\x7d").toList,
   ("w/own.jar\x7br5\x7d").toList]

/-- C4: each owner group reports at most 3 references verbatim and carries
exactly one overflow marker exactly when more than 3 records arrived; in
particular 5 records sharing one owner aggregate to one group rendered as
3 references plus a single marker. -/
theorem aggregation_truncation :
    (∀ refs : List (List Char),
      ((renderGroup refs).count ReportLine.overflow =
        if MAX_FILES_PER_DEPENDENCY < refs.length then 1 else 0) ∧
      ((renderGroup refs).filter (fun l => l ≠ ReportLine.overflow)).length =
        min refs.length MAX_FILES_PER_DEPENDENCY) ∧
    (groupRecords 1 fiveSameOwnerItems).map (fun g => (g.1, renderGroup g.2)) =
      [(("own.jar").toList,
        [ReportLine.ref (("r1").toList), ReportLine.ref (("r2").toList),
         ReportLine.ref (("r3").toList), ReportLine.overflow])] := by
  constructor
  · intro refs
    constructor
    · rw [renderGroup, List.count_append]
      have hmem : ReportLine.overflow ∉
          (refs.take MAX_FILES_PER_DEPENDENCY).map ReportLine.ref := by
        intro hmem
        obtain ⟨r, hr1, hr2⟩ := List.mem_map.mp hmem
        cases hr2
      rw [List.count_eq_zero.mpr hmem]
      split <;> simp
    · rw [renderGroup, List.filter_append]
      have h1 : ((refs.take MAX_FILES_PER_DEPENDENCY).map ReportLine.ref).filter
          (fun l => decide (l ≠ ReportLine.overflow)) =
          (refs.take MAX_FILES_PER_DEPENDENCY).map ReportLine.ref := by
        rw [List.filter_eq_self]
        intro a ha
        obtain ⟨r, hr1, rfl⟩ := List.mem_map.mp ha
        simp
      rw [h1]
      have h2 : (if MAX_FILES_PER_DEPENDENCY < refs.length
            then [ReportLine.overflow] else ([] : List ReportLine)).filter
          (fun l => decide (l ≠ ReportLine.overflow)) = [] := by
        split <;> simp
      rw [h2]
      simp [MAX_FILES_PER_DEPENDENCY, Nat.min_comm]
  · decide

theorem findIdx_at_sep (a b : List Char) (c : Char) (h : c ∉ a) (i : Nat) :
    List.findIdx? (fun x => x == c) (a ++ c :: b) i = some (i + a.length) := by
  induction a generalizing i with
  | nil => simp [List.findIdx?_cons]
  | cons x xs ih =>
    have hx : ¬ ((x == c) = true) := by
      simp only [beq_iff_eq]
      intro hcx
      exact h (by simp [hcx])
    have hxs : c ∉ xs := fun hc => h (List.mem_cons_of_mem _ hc)
    simp only [List.cons_append, List.findIdx?_cons, if_neg hx, ih hxs]
    simp
    omega

theorem findIdx_none_of_not_mem (l : List Char) (c : Char) (h : c ∉ l)
    (i : Nat) : List.findIdx? (fun x => x == c) l i = none := by
  induction l generalizing i with
  | nil => rfl
  | cons x xs ih =>
    have hx : ¬ ((x == c) = true) := by
      simp only [beq_iff_eq]
      intro hcx
      exact h (by simp [hcx])
    have hxs : c ∉ xs := fun hc => h (List.mem_cons_of_mem _ hc)
    simp only [List.findIdx?_cons, if_neg hx, ih hxs]

theorem charFind_append_cons (a b : List Char) (c : Char) (h : c ∉ a) :
    charFind (a ++ c :: b) c = some a.length := by
  unfold charFind
  rw [findIdx_at_sep a b c h 0]
  simp

theorem charFind_eq_none (s : List Char) (c : Char) (h : c ∉ s) :
    charFind s c = none :=
  findIdx_none_of_not_mem s c h 0

theorem charRfind_last_sep (a b : List Char) (c : Char) (h : c ∉ b) :
    charRfind (a ++ c :: b) c = some a.length := by
  have hrev : (a ++ c :: b).reverse = b.reverse ++ c :: a.reverse := by
    simp
  have hb : c ∉ b.reverse := by
    simpa using h
  have hfind : charFind ((a ++ c :: b).reverse) c = some b.length := by
    rw [hrev, charFind_append_cons _ _ _ hb]
    simp
  simp only [charRfind, hfind]
  have hlen : (a ++ c :: b).length - 1 - b.length = a.length := by
    rw [List.length_append, List.length_cons]
    omega
  rw [hlen]

theorem pySlice_natCast (s : List Char) (a b : Nat) :
    pySlice s (a : Int) (b : Int) = (s.take b).drop a := by
  have ha : ¬ ((a : Int) < 0) := by omega
  have hb : ¬ ((b : Int) < 0) := by omega
  simp only [pySlice, if_neg ha, if_neg hb, Int.toNat_natCast]
  have h1 : s.take (min b s.length) = s.take b := by
    rcases Nat.le_total b s.length with hbn | hbn
    · rw [Nat.min_eq_left hbn]
    · rw [Nat.min_eq_right hbn, List.take_length, List.take_of_length_le hbn]
  rw [h1]
  rcases Nat.le_total a s.length with han | han
  · rw [Nat.min_eq_left han]
  · rw [Nat.min_eq_right han]
    have hl : (s.take b).length ≤ s.length := by
      rw [List.length_take]
      omega
    rw [List.drop_eq_nil_of_le hl, List.drop_eq_nil_of_le (le_trans hl han)]

/-- C5 counterexample: with workspace root `/w`, the path
`/w/a.jar{x/y}` yields owner `a.jar` — the workspace prefix and its
separator are dropped — not "everything in archivePath up to the first
opening brace", which would be `/w/a.jar`. -/
theorem owner_key_strips_workspace_prefix :
    (parseMatchRecord 2 (("/w/a.jar\x7bx/y\x7d").toList)).1 ≠
      ("/w/a.jar").toList ∧
    parseMatchRecord 2 (("/w/a.jar\x7bx/y\x7d").toList) =
      (("a.jar").toList, ("x/y").toList) := by
  decide

/-- C5 amended: for a path of the shape `p ++ "{" ++ m ++ "}" ++ q` whose
first opening brace ends `p` and whose last closing brace precedes `q`,
the owner is `p` with its first `len(WORKSPACE) + 1` characters removed
(the workspace root and separator), and the reference is `m`, the content
between the first opening brace and the last closing one; a path with no
opening brace is used whole, prefix kept, as both owner and reference. -/
theorem match_record_extraction (wsLen : Nat) (p m q : List Char)
    (hp : '\x7b' ∉ p) (hq : '\x7d' ∉ q) :
    parseMatchRecord wsLen (p ++ '\x7b' :: (m ++ '\x7d' :: q)) =
      (p.drop (wsLen + 1), m) ∧
    (∀ item, '\x7b' ∉ item → parseMatchRecord wsLen item = (item, item)) := by
  constructor
  · have hfind : charFind (p ++ '\x7b' :: (m ++ '\x7d' :: q)) '\x7b' =
        some p.length := charFind_append_cons p _ _ hp
    have hrfind : charRfind (p ++ '\x7b' :: (m ++ '\x7d' :: q)) '\x7d' =
        some (p.length + (1 + m.length)) := by
      have h2 : p ++ '\x7b' :: (m ++ '\x7d' :: q) =
          (p ++ '\x7b' :: m) ++ '\x7d' :: q := by
        simp
      rw [h2, charRfind_last_sep _ _ _ hq]
      simp
      omega
    simp only [parseMatchRecord, hfind, hrfind]
    have e1 : ((wsLen : Int) + 1) = ((wsLen + 1 : Nat) : Int) := by omega
    have e2 : ((p.length : Int) + 1) = ((p.length + 1 : Nat) : Int) := by
      omega
    rw [e1, e2, pySlice_natCast, pySlice_natCast, List.take_left]
    have hsplit : p ++ '\x7b' :: (m ++ '\x7d' :: q) =
        ((p ++ ['\x7b']) ++ m) ++ '\x7d' :: q := by
      simp
    rw [hsplit]
    have hlen : p.length + (1 + m.length) = ((p ++ ['\x7b']) ++ m).length := by
      rw [List.length_append, List.length_append, List.length_singleton]
      omega
    rw [hlen, List.take_left]
    have hlen2 : p.length + 1 = (p ++ ['\x7b']).length := by
      rw [List.length_append, List.length_singleton]
    rw [hlen2, List.drop_left]
  · intro item hitem
    simp only [parseMatchRecord, charFind_eq_none item _ hitem]

theorem match_record_extraction_witness :
    parseMatchRecord 2
        (("/w/a.jar").toList ++ '\x7b' :: (("x/y").toList ++ '\x7d' :: [])) =
      ((("/w/a.jar").toList).drop 3, ("x/y").toList) ∧
    (∀ item, '\x7b' ∉ item → parseMatchRecord 2 item = (item, item)) :=
  match_record_extraction 2 (("/w/a.jar").toList) (("x/y").toList) []
    (by decide) (by decide)

/-! The function `_extract_maven_dependencies`: breadth-first JSON-tree extraction. -/

/-- One node of the Maven JSON dependency tree: the required keys
`groupId`, `artifactId`, `version`, `scope`, `type`, and the optional
`children` array (an absent key = the empty list). -/
inductive JNode : Type where
  | mk : List Char → List Char → List Char → Option (List Char) → List Char →
      List JNode → JNode

/-- The `children` array of a node. -/
def JNode.children : JNode → List JNode
  | .mk _ _ _ _ _ cs => cs

/-- The `Dependency(...)` constructed from one JSON node's five fields. -/
def JNode.dep : JNode → Dependency
  | .mk g a v s t _ =>
    { group_id := g, artifact_id := a, version := v, scope := s, type := t }

mutual

/-- The number of nodes of a tree — the termination measure of the BFS
work queue. -/
def JNode.size : JNode → Nat
  | .mk _ _ _ _ _ cs => 1 + sizeListJ cs

/-- The number of nodes of a forest. -/
def sizeListJ : List JNode → Nat
  | [] => 0
  | n :: ns => JNode.size n + sizeListJ ns

end

theorem sizeListJ_append (a b : List JNode) :
    sizeListJ (a ++ b) = sizeListJ a + sizeListJ b := by
  induction a with
  | nil => simp [sizeListJ]
  | cons n ns ih =>
    simp only [List.cons_append, sizeListJ, ih, List.append_eq]
    omega

theorem sizeListJ_cons_gt (d : JNode) (rest : List JNode) :
    sizeListJ rest + sizeListJ d.children < sizeListJ (d :: rest) := by
  cases d with
  | mk g a v s t cs =>
    simp only [JNode.children, sizeListJ, JNode.size]
    omega

/-- The `while len(json_deps) > 0` loop of `_extract_maven_dependencies`:
pop the queue's head, add its Dependency to the set (first-seen element of
an equality class wins, as in a Python set), push its children at the
queue's end. -/
def extractLoop : List JNode → List Dependency → List Dependency
  | [], acc => acc
  | d :: rest, acc => extractLoop (rest ++ d.children) (setAdd acc d.dep)
termination_by q _ => sizeListJ q
decreasing_by
  simp only [sizeListJ_append]
  exact sizeListJ_cons_gt _ _

/-- The nodes of the queue in the order the BFS loop visits them. -/
def bfsNodes : List JNode → List JNode
  | [] => []
  | d :: rest => d :: bfsNodes (rest ++ d.children)
termination_by q => sizeListJ q
decreasing_by
  simp only [sizeListJ_append]
  exact sizeListJ_cons_gt _ _

/-- The function `_extract_maven_dependencies` from the parsed JSON roots: a one-object
document seeds a one-element queue, an array seeds the whole list. -/
def extract_maven_dependencies (roots : List JNode) : List Dependency :=
  extractLoop roots []

mutual

/-- Every node of a tree, the root included. -/
def JNode.allNodes : JNode → List JNode
  | .mk g a v s t cs => JNode.mk g a v s t cs :: allNodesJ cs

/-- Every node appearing anywhere in a forest. -/
def allNodesJ : List JNode → List JNode
  | [] => []
  | n :: ns => JNode.allNodes n ++ allNodesJ ns

end

theorem allNodesJ_append (a b : List JNode) :
    allNodesJ (a ++ b) = allNodesJ a ++ allNodesJ b := by
  induction a with
  | nil => simp [allNodesJ]
  | cons n ns ih =>
    simp only [List.cons_append, allNodesJ, ih, List.append_eq,
      List.append_assoc]

theorem mem_bfsNodes_iff (q : List JNode) (n : JNode) :
    n ∈ bfsNodes q ↔ n ∈ allNodesJ q := by
  induction q using bfsNodes.induct with
  | case1 => simp [bfsNodes, allNodesJ]
  | case2 d rest ih =>
    cases d with
    | mk g a v s t cs =>
      simp only [JNode.children, allNodesJ_append, List.mem_append] at ih
      simp only [bfsNodes, List.mem_cons, JNode.children, ih,
        allNodesJ_append, allNodesJ, JNode.allNodes, List.mem_append]
      tauto

theorem pyEq_iff (a b : Dependency) : pyEq a b = true ↔ a.key = b.key := by
  simp only [pyEq, Bool.and_eq_true, decide_eq_true_eq, Dependency.key,
    Prod.mk.injEq]
  tauto

theorem setAdd_any_iff (s : List Dependency) (d : Dependency) :
    (s.any fun x => pyEq x d) = true ↔ ∃ x ∈ s, x.key = d.key := by
  rw [List.any_eq_true]
  constructor
  · rintro ⟨x, hx, hpx⟩
    exact ⟨x, hx, (pyEq_iff x d).mp hpx⟩
  · rintro ⟨x, hx, hk⟩
    exact ⟨x, hx, (pyEq_iff x d).mpr hk⟩

theorem foldl_setAdd_nodup (ds : List Dependency) (acc : List Dependency)
    (h : (acc.map Dependency.key).Nodup) :
    ((ds.foldl setAdd acc).map Dependency.key).Nodup := by
  induction ds generalizing acc with
  | nil => simpa using h
  | cons e ds ih =>
    simp only [List.foldl_cons]
    apply ih
    unfold setAdd
    by_cases hg : (acc.any fun x => pyEq x e) = true
    · rw [if_pos hg]
      exact h
    · rw [if_neg hg]
      rw [List.map_append, List.nodup_append]
      refine ⟨h, by simp, ?_⟩
      intro k hk hk2
      have hke : k = e.key := by simpa using hk2
      subst hke
      obtain ⟨x, hx, hxk⟩ := List.mem_map.mp hk
      exact hg ((setAdd_any_iff acc e).mpr ⟨x, hx, hxk⟩)

theorem mem_setAdd_key (acc : List Dependency) (e : Dependency)
    (k : List Char × List Char × List Char) :
    (∃ d ∈ setAdd acc e, d.key = k) ↔ (∃ d ∈ acc, d.key = k) ∨ e.key = k := by
  unfold setAdd
  by_cases hg : (acc.any fun x => pyEq x e) = true
  · rw [if_pos hg]
    constructor
    · exact Or.inl
    · rintro (h | h)
      · exact h
      · obtain ⟨x, hx, hxk⟩ := (setAdd_any_iff acc e).mp hg
        exact ⟨x, hx, hxk.trans h⟩
  · rw [if_neg hg]
    constructor
    · rintro ⟨d, hd, hdk⟩
      rcases List.mem_append.mp hd with h | h
      · exact Or.inl ⟨d, h, hdk⟩
      · have hde : d = e := by simpa using h
        subst hde
        exact Or.inr hdk
    · rintro (⟨d, hd, hdk⟩ | h)
      · exact ⟨d, List.mem_append.mpr (Or.inl hd), hdk⟩
      · exact ⟨e, List.mem_append.mpr (Or.inr (by simp)), h⟩

theorem foldl_setAdd_keys (ds acc : List Dependency)
    (k : List Char × List Char × List Char) :
    (∃ d ∈ ds.foldl setAdd acc, d.key = k) ↔
      (∃ d ∈ acc, d.key = k) ∨ (∃ d ∈ ds, d.key = k) := by
  induction ds generalizing acc with
  | nil => simp
  | cons e ds ih =>
    simp only [List.foldl_cons, ih, mem_setAdd_key, List.mem_cons,
      exists_eq_or_imp]
    exact or_assoc

theorem mem_foldl_setAdd (ds : List Dependency) (acc : List Dependency)
    (d : Dependency) :
    d ∈ ds.foldl setAdd acc ↔
      d ∈ acc ∨ ((∀ a ∈ acc, a.key ≠ d.key) ∧
        ds.find? (fun m => decide (m.key = d.key)) = some d) := by
  induction ds generalizing acc with
  | nil => simp
  | cons e ds ih =>
    simp only [List.foldl_cons, ih]
    by_cases he : e.key = d.key
    · rw [List.find?_cons_of_pos _ (by simpa using he)]
      unfold setAdd
      by_cases hg : (acc.any fun x => pyEq x e) = true
      · rw [if_pos hg]
        obtain ⟨x, hx, hxk⟩ := (setAdd_any_iff acc e).mp hg
        constructor
        · rintro (h | ⟨hall, hfind⟩)
          · exact Or.inl h
          · exact absurd (hxk.trans he) (hall x hx)
        · rintro (h | ⟨hall, hfind⟩)
          · exact Or.inl h
          · exact absurd (hxk.trans he) (hall x hx)
      · rw [if_neg hg]
        have hng : ∀ x ∈ acc, x.key ≠ e.key := by
          intro x hx hxk
          exact hg ((setAdd_any_iff acc e).mpr ⟨x, hx, hxk⟩)
        constructor
        · rintro (h | ⟨hall, hfind⟩)
          · rcases List.mem_append.mp h with h | h
            · exact Or.inl h
            · have hde : d = e := by simpa using h
              subst hde
              right
              exact ⟨fun a ha hk => hng a ha (hk.trans he.symm), rfl⟩
          · exact absurd he
              (hall e (List.mem_append.mpr (Or.inr (by simp))))
        · rintro (h | ⟨hall, hfind⟩)
          · exact Or.inl (List.mem_append.mpr (Or.inl h))
          · have hde : e = d := by
              injection hfind
            subst hde
            exact Or.inl (List.mem_append.mpr (Or.inr (by simp)))
    · rw [List.find?_cons_of_neg _ (by simpa using he)]
      unfold setAdd
      by_cases hg : (acc.any fun x => pyEq x e) = true
      · rw [if_pos hg]
      · rw [if_neg hg]
        constructor
        · rintro (h | ⟨hall, hfind⟩)
          · rcases List.mem_append.mp h with h | h
            · exact Or.inl h
            · have hde : d = e := by simpa using h
              subst hde
              exact absurd rfl he
          · exact Or.inr
              ⟨fun a ha => hall a (List.mem_append.mpr (Or.inl ha)), hfind⟩
        · rintro (h | ⟨hall, hfind⟩)
          · exact Or.inl (List.mem_append.mpr (Or.inl h))
          · right
            refine ⟨?_, hfind⟩
            intro a ha
            rcases List.mem_append.mp ha with h' | h'
            · exact hall a h'
            · have hae : a = e := by simpa using h'
              subst hae
              exact he

theorem extractLoop_eq_foldl (q : List JNode) (acc : List Dependency) :
    extractLoop q acc = ((bfsNodes q).map JNode.dep).foldl setAdd acc := by
  induction q, acc using extractLoop.induct with
  | case1 acc => simp [extractLoop, bfsNodes]
  | case2 d rest acc ih => simp [extractLoop, bfsNodes, ih]

/-- C2: over any valid JSON tree, the parsed result holds exactly one
Dependency per distinct (groupId, artifactId, version) triple appearing
anywhere in the tree, equality for dedup is decided only by that triple
(scope and type excluded), and a repeated triple keeps the first-seen
node's scope and type — membership equals being the first node in BFS
order carrying one's triple. -/
theorem maven_json_dedup (roots : List JNode) :
    (∀ a b : Dependency, pyEq a b = true ↔ a.key = b.key) ∧
    ((extract_maven_dependencies roots).map Dependency.key).Nodup ∧
    (∀ k, (∃ d ∈ extract_maven_dependencies roots, d.key = k) ↔
      ∃ n ∈ allNodesJ roots, n.dep.key = k) ∧
    (∀ d, d ∈ extract_maven_dependencies roots ↔
      ((bfsNodes roots).map JNode.dep).find?
        (fun m => decide (m.key = d.key)) = some d) := by
  refine ⟨pyEq_iff, ?_, ?_, ?_⟩
  · rw [extract_maven_dependencies, extractLoop_eq_foldl]
    exact foldl_setAdd_nodup _ [] (by simp)
  · intro k
    rw [extract_maven_dependencies, extractLoop_eq_foldl,
      foldl_setAdd_keys]
    simp only [List.mem_nil_iff, false_and, exists_false, false_or,
      List.mem_map, exists_exists_and_eq_and]
    constructor
    · rintro ⟨n, hn, hk⟩
      exact ⟨n, (mem_bfsNodes_iff roots n).mp hn, hk⟩
    · rintro ⟨n, hn, hk⟩
      exact ⟨n, (mem_bfsNodes_iff roots n).mpr hn, hk⟩
  · intro d
    rw [extract_maven_dependencies, extractLoop_eq_foldl,
      mem_foldl_setAdd]
    simp

/-! The function `_extract_gradle_dependencies`: the text-tree grammar.

One line of the report is matched against `[+\\]--- (\S+:\S+:.+$)`; lines
are modelled without their trailing newline, which neither `\S` nor `.`
can match and `$` skips. -/

/-- The literal ` -> ` marker of a build-tool version upgrade. -/
def arrowToken : List Char := (" -> ").toList

/-- Lines 318-320 of `sniffer.py`: when the version contains ` -> `, keep
everything after the first occurrence, stripped. -/
def resolveArrowVersion (v : List Char) : List Char :=
  match strFind v arrowToken with
  | some i => pyStrip (v.drop (i + 4))
  | none => v

/-- The index of the last `)` in `tl` that the greedy `.+` of `\(.+\)` can
reach: at least one character sits between the parentheses and no newline
comes before it (`.` does not match a newline). -/
def lastReachableClose (tl : List Char) : Option Nat :=
  (List.range tl.length).reverse.find? fun j =>
    decide (tl[j]? = some ')') && decide (1 ≤ j) &&
      ((tl.take j).all fun c => c != '\n')

/-- The regex `\s*(?:\(.+\))?\s*` matched at the head of `s`: the number
of characters it consumes there (0 = an empty match). -/
def matchAnnot (s : List Char) : Nat :=
  let w := (s.takeWhile isPySpace).length
  let rest := s.drop w
  match rest with
  | '(' :: tl =>
    match lastReachableClose tl with
    | some j =>
      let glen := 2 + j
      w + glen + ((rest.drop glen).takeWhile isPySpace).length
    | none => w
  | _ => w

/-- The scan of `re.sub`, with fuel: one unit of fuel covers one consumed
character, so `s.length` units suffice (every loop step consumes at least
one character). -/
def subAnnotAux : Nat → List Char → List Char
  | _, [] => []
  | 0, s => s
  | fuel + 1, c :: rest =>
    let n := matchAnnot (c :: rest)
    if n = 0 then c :: subAnnotAux fuel rest
    else subAnnotAux fuel ((c :: rest).drop n)

/-- Line 321 of `sniffer.py`,
`re.sub(r"\s*(?:\(.+\))?\s*", "", version)`: scan left to right, drop
every non-empty match, keep the character at every empty match. -/
def subAnnot (s : List Char) : List Char :=
  subAnnotAux s.length s

/-- Full match of `\S+:\S+:.+` against `s` with `$` closing the pattern:
some two colon positions split `s` into a non-empty run of
non-whitespace, another such run, and a non-empty newline-free tail. -/
def fitsCoord (s : List Char) : Bool :=
  (List.range s.length).any fun i =>
    (List.range s.length).any fun j =>
      decide (1 ≤ i) && decide (i + 2 ≤ j) && decide (j + 1 < s.length) &&
        decide (s[i]? = some ':') && decide (s[j]? = some ':') &&
        ((s.take i).all fun c => !(isPySpace c)) &&
        (((s.drop (i + 1)).take (j - (i + 1))).all fun c => !(isPySpace c)) &&
        ((s.drop (j + 1)).all fun c => c != '\n')

/-- The literal `--- ` that follows the `+` or `\` of a matching line. -/
def treeTag : List Char := ("--- ").toList

/-- A match of `[+\\]--- (\S+:\S+:.+$)` starting at position `i` of the
line: a `+` or `\`, the literal `--- `, then the coordinate shape running
to the line's end. -/
def lineMatchAt (ln : List Char) (i : Nat) : Bool :=
  (decide (ln[i]? = some '+') || decide (ln[i]? = some '\\')) &&
    treeTag.isPrefixOf (ln.drop (i + 1)) &&
    fitsCoord (ln.drop (i + 5))

/-- The search `re.search(r"[+\\]--- (\S+:\S+:.+$)", line)`: the captured group of
the leftmost match, which the end anchor forces to run to the line's
end. -/
def extractCoordLine (line : List Char) : Option (List Char) :=
  match (List.range line.length).find? (lineMatchAt line) with
  | some i => some (line.drop (i + 5))
  | none => none

/-- Lines 313-324 of `sniffer.py`: split the coordinate string on `:`,
strip the first three parts, resolve a ` -> ` upgrade, then strip the
parenthesized annotation; fewer than three parts raise an IndexError that
the `except` turns into a logged skip. -/
def parseCoordinates (coordinates : List Char) : Option Dependency :=
  match pySplitChar ':' coordinates with
  | g :: a :: v :: _ =>
    some (Dependency.init3 (pyStrip g) (pyStrip a)
      (subAnnot (resolveArrowVersion (pyStrip v))))
  | _ => none

/-- One iteration of the line loop of `_extract_gradle_dependencies`. -/
def processLine (line : List Char) : Option Dependency :=
  match extractCoordLine line with
  | some coords => parseCoordinates coords
  | none => none

/-- The function `_extract_gradle_dependencies` over the input's lines. -/
def extract_gradle_dependencies (lines : List (List Char)) :
    List Dependency :=
  lines.foldl (fun acc line =>
    match processLine line with
    | some d => setAdd acc d
    | none => acc) []

/-- C6: for a matching line the version is normalized by the arrow step
first and the annotation strip second:
`+--- com.foo:bar:1.0 -> 1.2 (*)` parses to (com.foo, bar, 1.2), and
`\--- org.x:y:2.0` parses to version 2.0 unchanged. -/
theorem gradle_version_normalization :
    processLine (("+--- com.foo:bar:1.0 -> 1.2 (*)").toList) =
      some (Dependency.init3 (("com.foo").toList) (("bar").toList)
        (("1.2").toList)) ∧
    processLine (("\\--- org.x:y:2.0").toList) =
      some (Dependency.init3 (("org.x").toList) (("y").toList)
        (("2.0").toList)) := by
  decide

theorem one_le_count_of_getElem (s : List Char) (c : Char) (i : Nat)
    (hi : s[i]? = some c) : 1 ≤ s.count c := by
  induction s generalizing i with
  | nil => simp at hi
  | cons x xs ih =>
    cases i with
    | zero =>
      have hx : x = c := by simpa using hi
      simp only [List.count_cons, hx, beq_self_eq_true, if_true]
      omega
    | succ j =>
      have h1 := ih j (by simpa using hi)
      simp only [List.count_cons]
      omega

theorem two_le_count_of_getElem (s : List Char) (c : Char) (i j : Nat)
    (hij : i < j) (hi : s[i]? = some c) (hj : s[j]? = some c) :
    2 ≤ s.count c := by
  induction s generalizing i j with
  | nil => simp at hi
  | cons x xs ih =>
    cases i with
    | zero =>
      have hx : x = c := by simpa using hi
      cases j with
      | zero => omega
      | succ j1 =>
        have h1 := one_le_count_of_getElem xs c j1 (by simpa using hj)
        simp only [List.count_cons, hx, beq_self_eq_true, if_true]
        omega
    | succ i1 =>
      cases j with
      | zero => omega
      | succ j1 =>
        have h2 := ih i1 j1 (by omega) (by simpa using hi)
          (by simpa using hj)
        simp only [List.count_cons]
        omega

theorem pySplitChar_length (c : Char) (s : List Char) :
    (pySplitChar c s).length = s.count c + 1 := by
  induction s with
  | nil => simp [pySplitChar]
  | cons x xs ih =>
    cases hq : pySplitChar c xs with
    | nil =>
      rw [hq] at ih
      simp at ih
    | cons g gs =>
      rw [hq] at ih
      simp only [pySplitChar, hq]
      by_cases hxc : x = c
      · rw [if_pos hxc]
        simp only [List.length_cons, List.count_cons, hxc,
          beq_self_eq_true, if_true]
        simp only [List.length_cons] at ih
        omega
      · rw [if_neg hxc]
        have hbeq : (x == c) = false := by
          simpa using hxc
        simp only [List.length_cons, List.count_cons, hbeq,
          Bool.false_eq_true, if_false]
        simp only [List.length_cons] at ih
        omega

theorem fitsCoord_two_colons (s : List Char) (h : fitsCoord s = true) :
    2 ≤ s.count ':' := by
  unfold fitsCoord at h
  rw [List.any_eq_true] at h
  obtain ⟨i, hi_mem, hi⟩ := h
  rw [List.any_eq_true] at hi
  obtain ⟨j, hj_mem, hj⟩ := hi
  simp only [Bool.and_eq_true, decide_eq_true_eq] at hj
  obtain ⟨⟨⟨⟨⟨⟨⟨h1, h2⟩, h3⟩, h4⟩, h5⟩, hA⟩, hB⟩, hC⟩ := hj
  exact two_le_count_of_getElem s ':' i j (by omega) h4 h5

theorem parseCoordinates_some (s : List Char)
    (h : 3 ≤ (pySplitChar ':' s).length) :
    ∃ d, parseCoordinates s = some d := by
  unfold parseCoordinates
  cases hq : pySplitChar ':' s with
  | nil =>
    rw [hq] at h
    simp at h
  | cons g rest =>
    cases rest with
    | nil =>
      rw [hq] at h
      simp at h
    | cons a rest2 =>
      cases rest2 with
      | nil =>
        rw [hq] at h
        simp at h
      | cons v rest3 => exact ⟨_, rfl⟩

theorem extract_some_facts (ln g : List Char)
    (h : extractCoordLine ln = some g) :
    fitsCoord g = true ∧ processLine ln = parseCoordinates g := by
  have h0 := h
  unfold extractCoordLine at h
  cases hfind : (List.range ln.length).find? (lineMatchAt ln) with
  | none =>
    rw [hfind] at h
    exact absurd h (by simp)
  | some i =>
    rw [hfind] at h
    simp only [Option.some.injEq] at h
    have hpred := List.find?_some hfind
    unfold lineMatchAt at hpred
    simp only [Bool.and_eq_true] at hpred
    obtain ⟨⟨hpm, htag⟩, hfits⟩ := hpred
    constructor
    · rw [← h]
      exact hfits
    · unfold processLine
      rw [h0]

/-- C7 counterexample: the line `+--- a:b:c:d` matches the pattern, its
coordinate string splits into four colon-separated parts — not exactly
three — and the parser still emits a Dependency built from the first
three parts instead of skipping the line. -/
theorem gradle_extra_parts_not_skipped :
    (pySplitChar ':' (("a:b:c:d").toList)).length ≠ 3 ∧
    processLine (("+--- a:b:c:d").toList) =
      some (Dependency.init3 (("a").toList) (("b").toList)
        (("c").toList)) := by
  decide

/-- C7 amended: every line matching the pattern has a coordinate string
of at least three colon-separated parts (the pattern guarantees two
colons) and is always emitted, built from the first three parts, extra
parts ignored; a line that cannot produce at least three parts never
matches and is skipped without aborting the parse — removing such a line
leaves the parse of the remaining lines unchanged. -/
theorem gradle_line_split_and_skip (ln bad : List Char)
    (ls1 ls2 : List (List Char)) :
    (∀ g, extractCoordLine ln = some g →
      3 ≤ (pySplitChar ':' g).length ∧ ∃ d, processLine ln = some d) ∧
    (processLine bad = none →
      extract_gradle_dependencies (ls1 ++ bad :: ls2) =
        extract_gradle_dependencies (ls1 ++ ls2)) := by
  constructor
  · intro g hg
    have hfacts := extract_some_facts ln g hg
    have hcnt := fitsCoord_two_colons g hfacts.1
    have hlen : 3 ≤ (pySplitChar ':' g).length := by
      rw [pySplitChar_length]
      omega
    refine ⟨hlen, ?_⟩
    obtain ⟨d, hd⟩ := parseCoordinates_some g hlen
    exact ⟨d, hfacts.2.trans hd⟩
  · intro hbad
    simp only [extract_gradle_dependencies, List.foldl_append,
      List.foldl_cons, hbad]

/-! The functions `_find_java_packages` and `_find_java_artifact`: post-filtering of
the utility's matches -/

/-- Line 119's `args.package.replace(".", "/")`. -/
def slashifyPackage (pkg : List Char) : List Char :=
  pkg.map fun c => if c = '.' then '/' else c

/-- A word character of the regex `\b` (letters, digits, underscore). -/
def isWordChar (c : Char) : Bool := c.isAlphanum || c = '_'

/-- Whether the character at index `i` (when there is one) is a word
character. -/
def wordAt (s : List Char) (i : Nat) : Bool :=
  match s[i]? with
  | some c => isWordChar c
  | none => false

/-- The zero-width `\b` between positions `i - 1` and `i`: exactly one
side is a word character (positions off the string count as
non-word). -/
def boundaryAt (s : List Char) (i : Nat) : Bool :=
  (decide (0 < i) && wordAt s (i - 1)) != wordAt s i

/-- The search `re.search(r"\b" + re.escape(pat), s)` of lines 140-141: some
position of `s` carries a word boundary followed by the literal
pattern. -/
def hasWordBoundarySub (pat s : List Char) : Bool :=
  (List.range (s.length + 1)).any fun i =>
    boundaryAt s i && pat.isPrefixOf (s.drop i)

/-- Line 141 of `sniffer.py`: of the utility's matches, keep only the
files whose path contains the slash-converted package at a word
boundary. -/
def find_java_packages_filter (pkg : List Char)
    (files : List (List Char)) : List (List Char) :=
  files.filter fun f => hasWordBoundarySub (slashifyPackage pkg) f

/-- Line 167 of `sniffer.py`: the artifact search keeps every matched
file, unfiltered. -/
def find_java_artifact_files (files : List (List Char)) :
    List (List Char) :=
  files

theorem hasWordBoundarySub_iff (pat s : List Char) :
    hasWordBoundarySub pat s = true ↔
      ∃ pre post, s = pre ++ pat ++ post ∧
        boundaryAt s pre.length = true := by
  unfold hasWordBoundarySub
  rw [List.any_eq_true]
  constructor
  · rintro ⟨i, hmem, hp⟩
    rw [List.mem_range] at hmem
    simp only [Bool.and_eq_true] at hp
    obtain ⟨hb, hpre⟩ := hp
    obtain ⟨post, hpost⟩ := List.isPrefixOf_iff_prefix.mp hpre
    refine ⟨s.take i, post, ?_, ?_⟩
    · rw [List.append_assoc, hpost, List.take_append_drop]
    · have hlen : (s.take i).length = i := by
        rw [List.length_take]
        omega
      rw [hlen]
      exact hb
  · rintro ⟨pre, post, hs, hb⟩
    refine ⟨pre.length, ?_, ?_⟩
    · rw [List.mem_range, hs]
      simp only [List.length_append]
      omega
    · simp only [Bool.and_eq_true]
      refine ⟨hb, ?_⟩
      rw [List.isPrefixOf_iff_prefix, hs, List.append_assoc,
        List.drop_left]
      exact ⟨post, rfl⟩

/-- C10: the package search post-filters the utility's matches — a
returned file is kept if and only if its path contains the
slash-converted package name preceded by a word boundary — while the
artifact search keeps every match unfiltered. -/
theorem package_search_boundary_filter (pkg f : List Char)
    (files : List (List Char)) :
    (f ∈ find_java_packages_filter pkg files ↔
      f ∈ files ∧ ∃ pre post, f = pre ++ slashifyPackage pkg ++ post ∧
        boundaryAt f pre.length = true) ∧
    find_java_artifact_files files = files := by
  constructor
  · rw [find_java_packages_filter, List.mem_filter, hasWordBoundarySub_iff]
  · rfl

end Sniffer
